import Mathlib

/-
Verification of the DWARF textual-dump interpreter and PC-range annotation
engine of `disassemble-function.py`.

The Python source works line-by-line on the textual output of
`objdump --dwarf=info` / `--dwarf=Ranges` and on disassembly listings.  We
embed it shallowly: each regular expression of the source becomes an
executable Lean matcher over `List Char` (with Python's greedy-backtracking
semantics hand-implemented for the specific patterns), Python dictionaries
become insertion-ordered association lists, and every Python function that
can raise (uncaught `ValueError`, `TypeError`, `IndexError`, or a `u.error`
abort) returns `Except String`.

Modelling conventions:
  * input lines are newline-free (they come from `u.docmdlines`, which
    splits subprocess output on newlines), so `.` in a pattern is modelled
    as "any character" and `$` as end of string;
  * Python's `\s` is modelled by the six ASCII whitespace characters
    (the only whitespace objdump emits);
  * `int(s, 16)` is modelled by `pyIntHex` (optional sign, optional
    `0x`/`0X` prefix, ASCII hex digits, single underscores between digits);
    `None` for failure models the raised `ValueError`;
  * subprocess output (`u.docmdlines "objdump ..."`) is passed in as an
    explicit `List String` parameter.
-/

namespace DisasFn

/-! ## Character classes -/

/-- Python `\s` on the ASCII range: the whitespace characters objdump can emit. -/
def isPySpace (c : Char) : Bool :=
  c == ' ' || c == '\t' || c == '\n' || c == '\r' || c == '\x0b' || c == '\x0c'

/-- The character class `[0-9a-f]` used by the range-list regexes. -/
def isLHex (c : Char) : Bool :=
  c.isDigit || decide ('a' ≤ c ∧ c ≤ 'f')

def takeNonSp (l : List Char) : List Char := l.takeWhile (fun c => !isPySpace c)

def dropNonSp (l : List Char) : List Char := l.dropWhile (fun c => !isPySpace c)

/-- Consume an exact literal, returning the remainder. -/
def expectLit : List Char → List Char → Option (List Char)
  | [], l => some l
  | p :: ps, c :: cs => if c = p then expectLit ps cs else none
  | _ :: _, [] => none

/-- `\s+`: require at least one whitespace character, then skip the maximal run. -/
def reqSpaces (l : List Char) : Option (List Char) :=
  match l with
  | c :: _ => if isPySpace c then some (l.dropWhile isPySpace) else none
  | [] => none

/-! ## Python `int(s, 16)` -/

def pyHexDigVal (c : Char) : Option Nat :=
  if c.isDigit then some (c.toNat - 48)
  else if decide ('a' ≤ c ∧ c ≤ 'f') then some (c.toNat - 87)
  else if decide ('A' ≤ c ∧ c ≤ 'F') then some (c.toNat - 55)
  else none

/-- Hex digits after the first: a single underscore may separate digits. -/
def pyHexTail : List Char → Nat → Option Nat
  | [], acc => some acc
  | '_' :: rest, acc =>
    match rest with
    | c :: rest2 =>
      match pyHexDigVal c with
      | some v => pyHexTail rest2 (acc * 16 + v)
      | none => none
    | [] => none
  | c :: rest, acc =>
    match pyHexDigVal c with
    | some v => pyHexTail rest (acc * 16 + v)
    | none => none

/-- A nonempty hex-digit string, first character must be a digit. -/
def pyHexDigits (l : List Char) : Option Nat :=
  match l with
  | c :: rest =>
    match pyHexDigVal c with
    | some v => pyHexTail rest v
    | none => none
  | [] => none

/-- Python `int(s, 16)`: optional sign, optional `0x`/`0X` prefix (with an
optional single underscore right after it), then hex digits.  `none` models
the `ValueError` raised on malformed input. -/
def pyIntHex (s : String) : Option Int :=
  let l := s.data
  let sg : Bool × List Char :=
    match l with
    | '+' :: r => (false, r)
    | '-' :: r => (true, r)
    | _ => (false, l)
  let body : List Char :=
    match sg.2 with
    | '0' :: 'x' :: r => (match r with | '_' :: r2 => r2 | _ => r)
    | '0' :: 'X' :: r => (match r with | '_' :: r2 => r2 | _ => r)
    | _ => sg.2
  -- the prefix match above must not fire when there is no prefix: a plain
  -- digit string starting with '0' but not followed by x/X falls through
  match pyHexDigits body with
  | some v => some (if sg.1 then -(v : Int) else (v : Int))
  | none => none

/-! ## `"%x"` formatting and `str.strip()` -/

def hexChar (n : Nat) : Char :=
  if n < 10 then Char.ofNat (48 + n) else Char.ofNat (87 + n)

def natToHexAux : Nat → Nat → List Char → List Char
  | 0, _, acc => acc
  | fuel + 1, n, acc => if n = 0 then acc else natToHexAux fuel (n / 16) (hexChar (n % 16) :: acc)

/-- Lower-case hex rendering of a natural number, as Python `"%x"`. -/
def natToHex (n : Nat) : String :=
  if n = 0 then "0" else (natToHexAux (n + 1) n []).asString

/-- Python `"%x" % v` for an int (negative values render as `-...`). -/
def intToHex (v : Int) : String :=
  if v < 0 then "-" ++ natToHex v.natAbs else natToHex v.toNat

/-- Python `"%x" % off` where `off` may be `None` (a dict key): formatting
`None` with `%x` raises `TypeError`.  The source formats DIE offsets eagerly
inside `u.verbose` calls, so this is a real abort point. -/
def fmtOffHex : Option Int → Except String String
  | none => .error "TypeError: %x format: an integer is required, not NoneType"
  | some v => .ok (intToHex v)

/-- Python `str.strip()` restricted to ASCII whitespace. -/
def pyStrip (s : String) : String :=
  ((s.data.dropWhile isPySpace).reverse.dropWhile isPySpace).reverse.asString

/-! ## Insertion-ordered dictionaries (Python `dict` / `defaultdict(list)`) -/

/-- Python `d[k]` lookup / `k in d`: first (unique) matching key. -/
def dictLookup {α β : Type} [DecidableEq α] (d : List (α × β)) (k : α) : Option β :=
  match d with
  | [] => none
  | (k2, v) :: rest => if k2 = k then some v else dictLookup rest k

/-- Python `k in d`. -/
def dictHasKey {α β : Type} [DecidableEq α] (d : List (α × β)) (k : α) : Bool :=
  match d with
  | [] => false
  | (k2, _) :: rest => if k2 = k then true else dictHasKey rest k

/-- Python `d[k] = v`: update in place if present, else append at the end. -/
def dictSet {α β : Type} [DecidableEq α] (d : List (α × β)) (k : α) (v : β) : List (α × β) :=
  match d with
  | [] => [(k, v)]
  | (k2, v2) :: rest => if k2 = k then (k, v) :: rest else (k2, v2) :: dictSet rest k v

/-- Python `defaultdict(list)`: `d[k].append(v)`. -/
def dictAppendList {α β : Type} [DecidableEq α] (d : List (α × List β)) (k : α) (v : β) :
    List (α × List β) :=
  match d with
  | [] => [(k, [v])]
  | (k2, vs) :: rest =>
    if k2 = k then (k2, vs ++ [v]) :: rest else (k2, vs) :: dictAppendList rest k v

/-! ## The regexes of `disassemble-function.py`

Each matcher implements one compiled pattern of the source, with Python's
greedy-backtracking semantics for the `(\S+)` groups implemented by an
explicit descending-split search. -/

/-- Rest of `bdiere` after the offset group: `\>\:\s*Abbrev\sNumber\:\s+(\d+)\s+\((\S+)\)\s*$`,
returning groups 2 (abbrev number) and 3 (tag). -/
def bdiereRest (l : List Char) : Option (String × String) := do
  let l ← expectLit ['>', ':'] l
  let l := l.dropWhile isPySpace
  let l ← expectLit ['A', 'b', 'b', 'r', 'e', 'v'] l
  match l with
  | c :: l2 =>
    if isPySpace c then do
      let l3 ← expectLit ['N', 'u', 'm', 'b', 'e', 'r', ':'] l2
      let l4 ← reqSpaces l3
      let ds := l4.takeWhile Char.isDigit
      let l5 := l4.dropWhile Char.isDigit
      if ds.isEmpty then none
      else do
        let l6 ← reqSpaces l5
        let l7 ← expectLit ['('] l6
        let r3 := takeNonSp l7
        let u3 := dropNonSp l7
        if u3.all isPySpace then
          match r3.reverse with
          | ')' :: c2 :: cs => some (ds.asString, ((c2 :: cs).reverse).asString)
          | _ => none
        else none
    else none
  | [] => none

/-- Greedy backtracking for the `(\S+)` offset group of `bdiere`. -/
def bdiereTry (r u : List Char) : Nat → Option (String × String × String)
  | 0 => none
  | k + 1 =>
    match bdiereRest (r.drop (k + 1) ++ u) with
    | some (g2, g3) => some ((r.take (k + 1)).asString, g2, g3)
    | none => bdiereTry r u k

/-- `bdiere = ^\s*\<\d+\>\<(\S+)\>\:\s*Abbrev\sNumber\:\s+(\d+)\s+\((\S+)\)\s*$`:
the begin-DIE preamble.  Returns `(offset-field, abbrev-number, tag)`. -/
def bdiereCore (l : List Char) : Option (String × String × String) := do
  let l1 := l.dropWhile isPySpace
  let l2 ← expectLit ['<'] l1
  let ds := l2.takeWhile Char.isDigit
  let l3 := l2.dropWhile Char.isDigit
  if ds.isEmpty then none
  else do
    let l4 ← expectLit ['>', '<'] l3
    let r := takeNonSp l4
    let u := dropNonSp l4
    bdiereTry r u r.length

def bdiere_match (s : String) : Option (String × String × String) :=
  bdiereCore s.data

/-- Rest of `indiere` after the attribute name: `(\s*)\:(.*)$`, returning group 6. -/
def indiereRestVal (l : List Char) : Option String :=
  match l.dropWhile isPySpace with
  | ':' :: rest => some rest.asString
  | _ => none

/-- Greedy backtracking for the `\S+` part of the `(DW_AT_\S+)` group. -/
def indiereTryAttr (r4 u4 : List Char) : Nat → Option (String × String)
  | 0 => none
  | j + 1 =>
    match indiereRestVal (r4.drop (j + 1) ++ u4) with
    | some g6 => some ((['D', 'W', '_', 'A', 'T', '_'] ++ r4.take (j + 1)).asString, g6)
    | none => indiereTryAttr r4 u4 j

/-- Rest of `indiere` after the offset group and `\>`: `(\s+)(DW_AT_\S+)(\s*)\:(.*)$`. -/
def indiereAfterOff (l : List Char) : Option (String × String) :=
  match l with
  | c :: _ =>
    if isPySpace c then
      match expectLit ['D', 'W', '_', 'A', 'T', '_'] (l.dropWhile isPySpace) with
      | none => none
      | some l3 =>
        let r4 := takeNonSp l3
        let u4 := dropNonSp l3
        indiereTryAttr r4 u4 r4.length
    else none
  | [] => none

/-- Greedy backtracking for the `(\S+)` offset group of `indiere`. -/
def indiereTryOff (r u : List Char) : Nat → Option (String × String)
  | 0 => none
  | k + 1 =>
    match r.drop (k + 1) ++ u with
    | '>' :: rest =>
      match indiereAfterOff rest with
      | some res => some res
      | none => indiereTryOff r u k
    | _ => indiereTryOff r u k

/-- `indiere = ^(\s*)\<(\S+)\>(\s+)(DW_AT_\S+)(\s*)\:(.*)$`: the within-DIE
attribute line.  Returns `(attribute-name, raw-value-text)` (groups 4 and 6,
the only groups the source consumes). -/
def indiereCore (l : List Char) : Option (String × String) :=
  match l.dropWhile isPySpace with
  | '<' :: l2 =>
    let r := takeNonSp l2
    let u := dropNonSp l2
    indiereTryOff r u r.length
  | _ => none

def indiere_match (s : String) : Option (String × String) :=
  indiereCore s.data

/-- `hexvalre = ^\s*0x(\S+)\s*$`. -/
def hexvalre_match (s : String) : Option String :=
  match expectLit ['0', 'x'] (s.data.dropWhile isPySpace) with
  | none => none
  | some l2 =>
    let r := takeNonSp l2
    let u := dropNonSp l2
    if r.isEmpty then none
    else if u.all isPySpace then some r.asString else none

/-- `hexval2re = ^\s*\<0x(\S+)\>\s*$`. -/
def hexval2re_match (s : String) : Option String :=
  match expectLit ['<', '0', 'x'] (s.data.dropWhile isPySpace) with
  | none => none
  | some l2 =>
    let r := takeNonSp l2
    let u := dropNonSp l2
    if u.all isPySpace then
      match r.reverse with
      | '>' :: c :: cs => some ((c :: cs).reverse.asString)
      | _ => none
    else none

/-- Value of a nonempty `[0-9a-f]+` run (always a valid hex number). -/
def hexVal (ds : List Char) : Nat :=
  ds.foldl (fun a c => a * 16 + (if c.isDigit then c.toNat - 48 else c.toNat - 87)) 0

/-- A nonempty maximal `[0-9a-f]+` run, decoded, with the remainder. -/
def hexRun (l : List Char) : Option (Nat × List Char) :=
  let ds := l.takeWhile isLHex
  let rest := l.dropWhile isLHex
  if ds.isEmpty then none else some (hexVal ds, rest)

/-- `singre = ^\s*([0-9a-f]+)\s+([0-9a-f]+)\s+([0-9a-f]+)\s*$`, composed with
the `int(..., 16)` decoding of its three groups (which cannot fail, since the
character class admits only valid hex digits). -/
def singre_parse (s : String) : Option (Nat × Nat × Nat) := do
  let l := s.data.dropWhile isPySpace
  let (a, l) ← hexRun l
  let l ← reqSpaces l
  let (b, l) ← hexRun l
  let l ← reqSpaces l
  let (c, l) ← hexRun l
  if l.all isPySpace then some (a, b, c) else none

/-- `endre = ^\s*([0-9a-f]+)\s+\<End of list\>\s*$`, with group 1 decoded. -/
def endre_parse (s : String) : Option Nat := do
  let l := s.data.dropWhile isPySpace
  let (a, l) ← hexRun l
  let l ← reqSpaces l
  let l ← expectLit "<End of list>".data l
  if l.all isPySpace then some a else none

/-- `basere = ^\s*([0-9a-f]+)\s+([0-9a-f]+)\s+([0-9a-f]+)\s+\(base address\)\s*$`.
The source never uses the groups of this pattern, only whether it matches. -/
def basere_test (s : String) : Bool :=
  (do
    let l := s.data.dropWhile isPySpace
    let (_, l) ← hexRun l
    let l ← reqSpaces l
    let (_, l) ← hexRun l
    let l ← reqSpaces l
    let (_, l) ← hexRun l
    let l ← reqSpaces l
    let l ← expectLit "(base address)".data l
    if l.all isPySpace then some () else none : Option Unit).isSome

/-- Group-3 test for `asmre`: does a remainder match `\:\s*\S.*$`? -/
def asmGrp3Ok (l : List Char) : Bool :=
  match l with
  | ':' :: rest => rest.any (fun c => !isPySpace c)
  | _ => false

/-- Greedy backtracking for the `(\S+)` address group of `asmre`. -/
def asmreTry (sp t u : List Char) : Nat → Option (List Char × List Char × List Char)
  | 0 => none
  | k + 1 =>
    if asmGrp3Ok (t.drop (k + 1) ++ u) then some (sp, t.take (k + 1), t.drop (k + 1) ++ u)
    else asmreTry sp t u k

/-- Core of `asmre = (^\s*)(\S+)(\:\s*\S.*)$`: the disassembly-line pattern. -/
def asmreCore (l : List Char) : Option (List Char × List Char × List Char) :=
  let sp := l.takeWhile isPySpace
  let r := l.dropWhile isPySpace
  let t := takeNonSp r
  let u := dropNonSp r
  asmreTry sp t u t.length

/-- `asmre` on a line, returning the three groups `(spaces, address-token, rest)`. -/
def asmre_match (s : String) : Option (String × String × String) :=
  match asmreCore s.data with
  | some (a, b, c) => some (a.asString, b.asString, c.asString)
  | none => none

/-! ## The data model

`Store` is the `dies` defaultdict of `read_die_chain`: DIE offsets (Python
`int`, or `None` when an attribute line precedes any DIE start) mapped to the
list of raw lines of the DIE, in insertion order.  `Attrs` is the attribute
dict of one expanded DIE.  `Item` is one named interval `(name, lo, hi)`. -/

abbrev Attrs := List (String × String)

abbrev Store := List (Option Int × List String)

abbrev Item := String × Int × Int

abbrev RlRefs := List (Int × List (Attrs × Option Int × String))

instance {ε α : Type} [DecidableEq ε] [DecidableEq α] : DecidableEq (Except ε α) := fun a b =>
  match a, b with
  | .ok x, .ok y =>
    if h : x = y then .isTrue (by rw [h]) else .isFalse (by intro hc; cases hc; exact h rfl)
  | .error x, .error y =>
    if h : x = y then .isTrue (by rw [h]) else .isFalse (by intro hc; cases hc; exact h rfl)
  | .ok _, .error _ => .isFalse (by intro hc; cases hc)
  | .error _, .ok _ => .isFalse (by intro hc; cases hc)

def exceptIsOk {α : Type} : Except String α → Bool
  | .ok _ => true
  | .error _ => false

/-! ## `read_die_chain` -/

/-- The loop of `read_die_chain`: a DIE-start line opens (or extends) the
entry for its decoded offset and becomes the current DIE; an attribute line
is appended to the current DIE's entry; other lines are skipped.  The
`int(absoff, 16)` call has no try/except, so an offset field that fails
base-16 decoding aborts. -/
def rdc_loop : List String → Store → Option Int → Except String Store
  | [], dies, _ => .ok dies
  | line :: rest, dies, cur =>
    match bdiere_match line with
    | some (offS, _, _) =>
      match pyIntHex offS with
      | none => .error ("ValueError: invalid literal for int with base 16: " ++ offS)
      | some odec => rdc_loop rest (dictAppendList dies (some odec) line) (some odec)
    | none =>
      match indiere_match line with
      | some _ => rdc_loop rest (dictAppendList dies cur line) cur
      | none => rdc_loop rest dies cur

/-- `read_die_chain(lines)`: reads output of `objdump --dwarf=info`. -/
def read_die_chain (lines : List String) : Except String Store :=
  rdc_loop lines [] none

/-! ## `expand_die` -/

/-- The attribute loop of `expand_die`: each remaining line must match
`indiere` (else `u.error` aborts); `attrs[attr] = val.strip()` means a later
occurrence of the same key overwrites the earlier one in place. -/
def expand_attrs : List String → Attrs → Except String Attrs
  | [], attrs => .ok attrs
  | line :: rest, attrs =>
    match indiere_match line with
    | none => .error ("cannot apply indiere match to " ++ line)
    | some (attr, rawval) => expand_attrs rest (dictSet attrs attr (pyStrip rawval))

/-- `expand_die(lines)`: abbrev number and tag from the first line (which
must match `bdiere`, else `u.error`; an empty line group would raise
`IndexError` on `lines[0]`), then the decoded attribute dict. -/
def expand_die (lines : List String) : Except String (String × String × Attrs) :=
  match lines with
  | [] => .error "IndexError: list index out of range"
  | l0 :: rest =>
    match bdiere_match l0 with
    | none => .error ("cannot apply bdiere match to " ++ l0)
    | some (_, abv, tag) =>
      match expand_attrs rest [] with
      | .error e => .error e
      | .ok attrs => .ok (abv, tag, attrs)

/-! ## `grab_hex_attr` and `get_pc_range` -/

/-- `grab_hex_attr(attrs, attrname)`: `-1` when the attribute is absent or
matches neither hex form; otherwise `int(group, 16)` — whose `ValueError`
on malformed digits is NOT caught by the source. -/
def grab_hex_attr (attrs : Attrs) (attrname : String) : Except String Int :=
  match dictLookup attrs attrname with
  | none => .ok (-1)
  | some hexval =>
    match hexvalre_match hexval with
    | some g =>
      match pyIntHex g with
      | some v => .ok v
      | none => .error ("ValueError: " ++ g)
    | none =>
      match hexval2re_match hexval with
      | some g =>
        match pyIntHex g with
        | some v => .ok v
        | none => .error ("ValueError: " ++ g)
      | none => .ok (-1)

/-- `get_pc_range(attrs)`. -/
def get_pc_range (attrs : Attrs) : Except String (Int × Int) :=
  match grab_hex_attr attrs "DW_AT_low_pc" with
  | .error e => .error e
  | .ok lo =>
    match grab_hex_attr attrs "DW_AT_high_pc" with
    | .error e => .error e
    | .ok hi => .ok (lo, hi)

/-! ## `collect_die_nametag` -/

/-- `collect_die_nametag(attrs, off, tag, dies)`.  A direct `DW_AT_name`
wins immediately.  Otherwise the single `DW_AT_abstract_origin` hop is
tried: the referenced DIE's own `DW_AT_name`, if any.  Otherwise the
synthetic `"unknown@<tag>@<off:%x>"` placeholder.  The `u.verbose` call at
the top of the unnamed path formats `off` with `%x` eagerly, so an
offset of Python `None` raises `TypeError` there. -/
def collect_die_nametag (attrs : Attrs) (off : Option Int) (tag : String) (dies : Store) :
    Except String String :=
  match dictLookup attrs "DW_AT_name" with
  | some n => .ok n
  | none =>
    match grab_hex_attr attrs "DW_AT_abstract_origin" with
    | .error e => .error e
    | .ok absoff =>
      match fmtOffHex off with
      | .error e => .error e
      | .ok offx =>
        match dictLookup dies (some absoff) with
        | some ls =>
          match expand_die ls with
          | .error e => .error e
          | .ok (_, _, aattrs) =>
            match dictLookup aattrs "DW_AT_name" with
            | some n => .ok n
            | none => .ok ("unknown@" ++ tag ++ "@" ++ offx)
        | none => .ok ("unknown@" ++ tag ++ "@" ++ offx)

/-! ## The `.debug_ranges` state machine of `postprocess_rangerefs` -/

/-- Parser state of the range-list loop.  `lastOff` tracks the final value
of the loop variable `off`, which leaks out of the loop and is formatted in
a warning afterwards (`none` = the loop never ran, so `off` is unbound). -/
structure RState where
  inrange : Bool
  crange : List (Int × Int)
  refranges : List (Int × List (Int × Int))
  unmatched : List String
  lastOff : Option Int
deriving DecidableEq

/-- Fall-through of one loop iteration: the `singre` test, reached when
neither the idle-state `basere` test nor the in-range `endre` test matched. -/
def rstep_sing (keys : List Int) (s : RState) (line : String) : RState :=
  match singre_parse line with
  | some (o, st, en) =>
    { inrange := true
      crange :=
        if (o : Int) ∈ keys then s.crange ++ [((st : Int), (en : Int))] else s.crange
      refranges := s.refranges
      unmatched := s.unmatched
      lastOff := some (o : Int) }
  | none => { s with unmatched := s.unmatched ++ [line], lastOff := some (-1) }

/-- One iteration of the range-list loop.  When idle, only `basere` is
tested before falling through to `singre`; when in a range, only `endre` is
tested — a base-address line while in a range therefore falls through to
`unmatched` without touching the state. -/
def rstep (keys : List Int) (s : RState) (line : String) : RState :=
  if s.inrange then
    match endre_parse line with
    | some eoff =>
      { inrange := false
        crange := []
        refranges := dictSet s.refranges (eoff : Int) s.crange
        unmatched := s.unmatched
        lastOff := some (eoff : Int) }
    | none => rstep_sing keys s line
  else
    if basere_test line then { s with inrange := true, lastOff := some (-1) }
    else rstep_sing keys s line

/-- The whole range-list parsing loop of `postprocess_rangerefs`, over the
captured `objdump --dwarf=Ranges` lines.  `keys` are the offsets of the
queued `DW_AT_ranges` references (`off in rlrefs`). -/
def parse_ranges (keys : List Int) (lines : List String) : RState :=
  lines.foldl (rstep keys) ⟨false, [], [], [], none⟩

/-- Inner loop of the final pass of `postprocess_rangerefs`: for each queued
DIE of one range-list offset, resolve its name and append one item per
range pair.  (The source unpacks `rng` as `hidec, lodec = rng` and then
appends `(name, hidec, lodec)`, so the pair is appended in source order.) -/
def pp_loop2 (dies : Store) (pairs : List (Int × Int)) :
    List (Attrs × Option Int × String) → List Item → Except String (List Item)
  | [], res => .ok res
  | (attrs, dieoff, tag) :: rest, res =>
    match collect_die_nametag attrs dieoff tag dies with
    | .error e => .error e
    | .ok name => pp_loop2 dies pairs rest (res ++ pairs.map (fun p => (name, p.1, p.2)))

/-- Outer loop of the final pass: each queued range-list offset either is
found in the parsed map or is skipped with a warning — a warning whose
format string mentions the loop variable `off` of the parsing loop, which
is unbound (`NameError`) when the ranges dump had no lines at all. -/
def pp_loop1 (s : RState) (dies : Store) : RlRefs → List Item → Except String (List Item)
  | [], res => .ok res
  | (roff, tlist) :: rest, res =>
    match dictLookup s.refranges roff with
    | none =>
      match s.lastOff with
      | none => .error "NameError: name off is not defined"
      | some _ => pp_loop1 s dies rest res
    | some pairs =>
      match pp_loop2 dies pairs tlist res with
      | .error e => .error e
      | .ok res2 => pp_loop1 s dies rest res2

/-- `postprocess_rangerefs(lm, rlrefs, dies, results)`, with the
`objdump --dwarf=Ranges` dump passed in as `ranges_lines`. -/
def postprocess_rangerefs (ranges_lines : List String) (rlrefs : RlRefs) (dies : Store)
    (results : List Item) : Except String (List Item) :=
  pp_loop1 (parse_ranges (rlrefs.map (·.1)) ranges_lines) dies rlrefs results

/-! ## `collect_ranged_items` -/

/-- The DIE loop of `collect_ranged_items`: a DIE with both `low_pc` and
`high_pc` decoded (≠ -1) contributes one named interval immediately; else a
DIE with a decoded `DW_AT_ranges` reference is queued in `rlrefs` (after a
`u.verbose` that formats `off` with `%x`); else it contributes nothing. -/
def cri_loop (dies : Store) :
    List (Option Int × List String) → List Item → RlRefs → Except String (List Item × RlRefs)
  | [], res, rl => .ok (res, rl)
  | (off, ls) :: rest, res, rl =>
    match expand_die ls with
    | .error e => .error e
    | .ok (_, tag, attrs) =>
      match get_pc_range attrs with
      | .error e => .error e
      | .ok (lodec, hidec) =>
        if lodec ≠ -1 ∧ hidec ≠ -1 then
          match collect_die_nametag attrs off tag dies with
          | .error e => .error e
          | .ok name => cri_loop dies rest (res ++ [(name, lodec, hidec)]) rl
        else
          match grab_hex_attr attrs "DW_AT_ranges" with
          | .error e => .error e
          | .ok rlref =>
            if rlref ≠ -1 then
              match fmtOffHex off with
              | .error e => .error e
              | .ok _ => cri_loop dies rest res (dictAppendList rl rlref (attrs, off, tag))
            else cri_loop dies rest res rl

/-- `collect_ranged_items(lm, dies)`: direct PC-range items, then — only
when at least one `DW_AT_ranges` reference was queued — the range-list
post-processing. -/
def collect_ranged_items (ranges_lines : List String) (dies : Store) :
    Except String (List Item) :=
  match cri_loop dies dies [] [] with
  | .error e => .error e
  | .ok (results, rlrefs) =>
    if rlrefs.isEmpty then .ok results
    else postprocess_rangerefs ranges_lines rlrefs dies results

/-! ## The annotation loop of `dodwarf` -/

def joinComma (l : List String) : String := String.intercalate "," l

/-- The suffix-collection loop: for each interval, in order, `lo == addr`
appends `" begin <name>"` and `hi == addr` appends `" end <name>"`. -/
def annotate_suffixes (items : List Item) (decaddr : Int) : List String :=
  items.foldl
    (fun acc t =>
      let acc1 := if t.2.1 = decaddr then acc ++ [" begin " ++ t.1] else acc
      if t.2.2 = decaddr then acc1 ++ [" end " ++ t.1] else acc1)
    []

/-- One iteration of the output loop of `dodwarf`: a line that does not
match `asmre`, or whose address token fails `int(addr, 16)` (caught
`ValueError`), is written unchanged; otherwise the three groups are written
back followed, when any suffix matched, by `" // "` and the comma-joined
suffixes. -/
def annotate_line (items : List Item) (line : String) : String :=
  match asmre_match line with
  | none => line
  | some (sp, addr, rem) =>
    match pyIntHex addr with
    | none => line
    | some decaddr =>
      match annotate_suffixes items decaddr with
      | [] => sp ++ addr ++ rem
      | s :: rest => sp ++ addr ++ rem ++ " // " ++ joinComma (s :: rest)

/-- The DWARF-annotation core of `dodwarf`: collect the ranged items for the
selected compilation unit's DIE store, then annotate the disassembly lines. -/
def dodwarf_annotate (ranges_lines : List String) (dies : Store) (asmlines : List String) :
    Except String (List String) :=
  match collect_ranged_items ranges_lines dies with
  | .error e => .error e
  | .ok items => .ok (asmlines.map (annotate_line items))

/-! ## Well-formed DIE dumps (for the round-trip property) -/

/-- One DIE's block of dump lines together with the classification data its
lines carry: the start line's three `bdiere` groups and decoded offset. -/
structure DieBlock where
  off : Int
  offS : String
  abv : String
  tag : String
  startLine : String
  attrLines : List String

def blockLines (b : DieBlock) : List String := b.startLine :: b.attrLines

/-- A block is well formed when its start line is a DIE-start line with the
recorded groups and decodable offset, and every following line is an
attribute line (and not a DIE-start line). -/
def WFBlock (b : DieBlock) : Prop :=
  bdiere_match b.startLine = some (b.offS, b.abv, b.tag) ∧
  pyIntHex b.offS = some b.off ∧
  ∀ l ∈ b.attrLines, bdiere_match l = none ∧ (indiere_match l).isSome

instance (b : DieBlock) : Decidable (WFBlock b) := by
  unfold WFBlock; infer_instance

/-- A well-formed DIE dump: a sequence of well-formed blocks with pairwise
distinct declared offsets. -/
def WFDump (bs : List DieBlock) : Prop :=
  (∀ b ∈ bs, WFBlock b) ∧ (bs.map (·.off)).Nodup

instance (bs : List DieBlock) : Decidable (WFDump bs) := by
  unfold WFDump; infer_instance

def dumpLines : List DieBlock → List String
  | [] => []
  | b :: rest => blockLines b ++ dumpLines rest

/-- The attribute key/value pairs observed on a block's source lines, in
line order, decoded exactly as `expand_die` decodes them. -/
def observedAttrs (ls : List String) : List (String × String) :=
  ls.filterMap (fun l => (indiere_match l).map (fun p => (p.1, pyStrip p.2)))

/-- The value of the last occurrence of key `a` in an ordered pair list. -/
def lastWins (ps : List (String × String)) (a : String) : Option String :=
  match ps with
  | [] => none
  | p :: rest =>
    match lastWins rest a with
    | some v => some v
    | none => if p.1 = a then some p.2 else none

/-- Does a DIE's line group decode to an ordered direct PC pair (or to no
usable pair at all)?  This is the per-DIE side condition under which the
collector's direct intervals are ordered. -/
def pcPairOrdered (ls : List String) : Bool :=
  match expand_die ls with
  | .error _ => true
  | .ok (_, _, ats) =>
    match get_pc_range ats with
    | .error _ => true
    | .ok (lo, hi) => decide (lo = -1) || decide (hi = -1) || decide (lo ≤ hi)

/-- Does a range-list dump line, if it is a singleton, carry an ordered
`(start, end)` pair? -/
def singletonOrdered (l : String) : Bool :=
  match singre_parse l with
  | some (_, st, en) => decide (st ≤ en)
  | none => true

/-! ## Concrete stores used by the claim instances -/

/-- A DIE store with one `compile_unit` DIE and one `subprogram` DIE named
`main` with `DW_AT_low_pc = 0x1000`, `DW_AT_high_pc = 0x1020`. -/
def diesMain : Store :=
  [(some 11,
    ["<0><b>: Abbrev Number: 1 (DW_TAG_compile_unit)",
     "    <c>   DW_AT_name    : foo.c"]),
   (some 16,
    ["<1><10>: Abbrev Number: 2 (DW_TAG_subprogram)",
     "    <11>   DW_AT_name    : main",
     "    <15>   DW_AT_low_pc    : 0x1000",
     "    <19>   DW_AT_high_pc    : 0x1020"])]

/-- Two subprograms `f` `[0x800,0x1000]` and `g` `[0x1000,0x1100]`, so that
address `0x1000` matches both an `end` and a `begin` boundary. -/
def diesMulti : Store :=
  [(some 32,
    ["<1><20>: Abbrev Number: 2 (DW_TAG_subprogram)",
     "    <21>   DW_AT_name    : f",
     "    <25>   DW_AT_low_pc    : 0x800",
     "    <29>   DW_AT_high_pc    : 0x1000"]),
   (some 48,
    ["<1><30>: Abbrev Number: 2 (DW_TAG_subprogram)",
     "    <31>   DW_AT_name    : g",
     "    <35>   DW_AT_low_pc    : 0x1000",
     "    <39>   DW_AT_high_pc    : 0x1100"])]

/-- A DIE store with a two-hop abstract-origin chain:
offset `0x20` (anonymous) → `0x10` (anonymous) → `0x8` (named `main`). -/
def diesC4 : Store :=
  [(some 8,
    ["<1><8>: Abbrev Number: 3 (DW_TAG_subprogram)",
     "    <9>   DW_AT_name    : main"]),
   (some 16,
    ["<1><10>: Abbrev Number: 4 (DW_TAG_subprogram)",
     "    <11>   DW_AT_abstract_origin    : <0x8>"]),
   (some 32,
    ["<2><20>: Abbrev Number: 5 (DW_TAG_inlined_subroutine)",
     "    <21>   DW_AT_abstract_origin    : <0x10>"])]

/-- A single subprogram `h` whose PC coverage is the `DW_AT_ranges`
reference `0x40`. -/
def diesRangesRef : Store :=
  [(some 80,
    ["<1><50>: Abbrev Number: 2 (DW_TAG_subprogram)",
     "    <51>   DW_AT_name    : h",
     "    <55>   DW_AT_ranges    : 0x40"])]

/-- The range-list dump of the claim C1 scenario: a block of two singletons
anchored (per the spec) at `0x40`, closed by an end-of-list line that
carries the distinct offset `0x60`. -/
def rangesLinesC1 : List String :=
  ["40 1000 1010", "40 1020 1030", "60 <End of list>"]

/-- The dump blocks used to instantiate the round-trip theorem. -/
def c2b1 : DieBlock :=
  ⟨11, "b", "1", "DW_TAG_compile_unit",
   "<0><b>: Abbrev Number: 1 (DW_TAG_compile_unit)",
   ["    <c>   DW_AT_name    : foo.c"]⟩

/-- Second witness block; it carries a duplicate `DW_AT_name` line so the
last-occurrence-wins decoding is exercised. -/
def c2b2 : DieBlock :=
  ⟨16, "10", "2", "DW_TAG_subprogram",
   "<1><10>: Abbrev Number: 2 (DW_TAG_subprogram)",
   ["    <11>   DW_AT_name    : main",
    "    <15>   DW_AT_low_pc    : 0x1000",
    "    <19>   DW_AT_high_pc    : 0x1020",
    "    <11>   DW_AT_name    : main2"]⟩

/-! # Helper lemmas -/

theorem strmk_append (a b : List Char) : (⟨a⟩ : String) ++ (⟨b⟩ : String) = ⟨a ++ b⟩ := rfl

theorem dictSet_lookup {α β : Type} [DecidableEq α] (d : List (α × β)) (k : α) (v : β) (a : α) :
    dictLookup (dictSet d k v) a = if k = a then some v else dictLookup d a := by
  induction d with
  | nil => simp [dictSet, dictLookup]
  | cons p rest ih =>
    obtain ⟨k2, v2⟩ := p
    by_cases hk : k2 = k
    · subst hk
      simp only [dictSet, if_pos rfl, dictLookup]
      by_cases ha : k2 = a <;> simp [ha]
    · simp only [dictSet, if_neg hk, dictLookup, ih]
      by_cases ha : k2 = a
      · subst ha
        have hne : ¬k = k2 := fun h2 => hk h2.symm
        simp [hne]
      · simp [if_neg ha]

theorem dictSet_mem {α β : Type} [DecidableEq α] (k : α) (v : β) :
    ∀ (d : List (α × β)) (q : α × β), q ∈ dictSet d k v → q ∈ d ∨ q = (k, v) := by
  intro d
  induction d with
  | nil =>
    intro q h
    simp only [dictSet, List.mem_singleton] at h
    right; exact h
  | cons p rest ih =>
    obtain ⟨k2, v2⟩ := p
    intro q h
    by_cases hk : k2 = k
    · subst hk
      simp only [dictSet, if_true, eq_self_iff_true, List.mem_cons] at h
      rcases h with h | h
      · right; exact h
      · left; exact List.mem_cons_of_mem _ h
    · simp only [dictSet, if_neg hk, List.mem_cons] at h
      rcases h with h | h
      · left; exact List.mem_cons.mpr (Or.inl h)
      · rcases ih q h with h2 | h2
        · left; exact List.mem_cons_of_mem _ h2
        · right; exact h2

theorem dictLookup_mem {α β : Type} [DecidableEq α] (k : α) (v : β) :
    ∀ (d : List (α × β)), dictLookup d k = some v → (k, v) ∈ d := by
  intro d
  induction d with
  | nil => intro h; simp [dictLookup] at h
  | cons p rest ih =>
    obtain ⟨k2, v2⟩ := p
    intro h
    simp only [dictLookup] at h
    by_cases hk : k2 = k
    · subst hk
      rw [if_pos rfl] at h
      cases h
      exact List.mem_cons_self _ _
    · rw [if_neg hk] at h
      exact List.mem_cons_of_mem _ (ih h)

theorem dictHasKey_append {α β : Type} [DecidableEq α] (d1 d2 : List (α × β)) (k : α) :
    dictHasKey (d1 ++ d2) k = (dictHasKey d1 k || dictHasKey d2 k) := by
  induction d1 with
  | nil => simp [dictHasKey]
  | cons p rest ih =>
    obtain ⟨k2, v2⟩ := p
    by_cases hk : k2 = k
    · simp [dictHasKey, hk]
    · simp [dictHasKey, hk, ih]

theorem dictAppendList_fresh {α β : Type} [DecidableEq α] (d : List (α × List β)) (k : α)
    (v : β) (h : dictHasKey d k = false) : dictAppendList d k v = d ++ [(k, [v])] := by
  induction d with
  | nil => rfl
  | cons p rest ih =>
    obtain ⟨k2, vs⟩ := p
    simp only [dictHasKey] at h
    by_cases hk : k2 = k
    · rw [if_pos hk] at h; cases h
    · rw [if_neg hk] at h
      simp only [dictAppendList, if_neg hk, List.cons_append, ih h]

theorem dictAppendList_last {α β : Type} [DecidableEq α] (d : List (α × List β)) (k : α)
    (vs : List β) (v : β) (h : dictHasKey d k = false) :
    dictAppendList (d ++ [(k, vs)]) k v = d ++ [(k, vs ++ [v])] := by
  induction d with
  | nil => simp [dictAppendList]
  | cons p rest ih =>
    obtain ⟨k2, vs2⟩ := p
    simp only [dictHasKey] at h
    by_cases hk : k2 = k
    · rw [if_pos hk] at h; cases h
    · rw [if_neg hk] at h
      simp only [List.cons_append, dictAppendList, if_neg hk, List.append_eq, ih h]

theorem asmreTry_parts (sp t u : List Char) :
    ∀ (k : Nat) (a b c : List Char), asmreTry sp t u k = some (a, b, c) →
      a = sp ∧ ∃ n, b = t.take n ∧ c = t.drop n ++ u := by
  intro k
  induction k with
  | zero => intro a b c h; simp [asmreTry] at h
  | succ k ih =>
    intro a b c h
    unfold asmreTry at h
    split at h
    · cases h
      exact ⟨rfl, k + 1, rfl, rfl⟩
    · exact ih a b c h

theorem asmreCore_parts (l a b c : List Char) (h : asmreCore l = some (a, b, c)) :
    a ++ (b ++ c) = l := by
  unfold asmreCore at h
  obtain ⟨ha, n, hb, hc⟩ := asmreTry_parts _ _ _ _ _ _ _ h
  subst ha hb hc
  rw [← List.append_assoc (List.take n _), List.take_append_drop]
  simp only [takeNonSp, dropNonSp]
  rw [List.takeWhile_append_dropWhile, List.takeWhile_append_dropWhile]

theorem asmre_match_parts (s sp addr rem : String)
    (h : asmre_match s = some (sp, addr, rem)) : sp ++ addr ++ rem = s := by
  unfold asmre_match at h
  cases hc : asmreCore s.data with
  | none => rw [hc] at h; cases h
  | some t3 =>
    obtain ⟨a, b, c⟩ := t3
    rw [hc] at h
    cases h
    have hl := asmreCore_parts s.data a b c hc
    show (⟨a⟩ : String) ++ (⟨b⟩ : String) ++ (⟨c⟩ : String) = s
    rw [strmk_append, strmk_append, List.append_assoc, hl]

theorem annotate_suffixes_eq_nil (items : List Item) (d : Int)
    (h : ∀ t ∈ items, t.2.1 ≠ d ∧ t.2.2 ≠ d) : annotate_suffixes items d = [] := by
  have haux : ∀ (l : List Item) (acc : List String), (∀ t ∈ l, t.2.1 ≠ d ∧ t.2.2 ≠ d) →
      l.foldl
        (fun acc t =>
          let acc1 := if t.2.1 = d then acc ++ [" begin " ++ t.1] else acc
          if t.2.2 = d then acc1 ++ [" end " ++ t.1] else acc1)
        acc = acc := by
    intro l
    induction l with
    | nil => intro acc _; rfl
    | cons t rest ih =>
      intro acc hl
      obtain ⟨h1, h2⟩ := hl t (List.mem_cons_self _ _)
      simp only [List.foldl, if_neg h1, if_neg h2]
      exact ih acc (fun t2 ht2 => hl t2 (List.mem_cons_of_mem _ ht2))
  exact haux items [] h

/-! # Claims -/

/-- C9: for every interval list and every disassembly input line that either
has no address parse (does not match `asmre`) or whose decoded address
matches no interval boundary, the annotator emits the line byte-for-byte
identical to the input. -/
theorem c9_annotator_noop (items : List Item) (line : String)
    (h : asmre_match line = none ∨
      ∃ sp addr rem d, asmre_match line = some (sp, addr, rem) ∧ pyIntHex addr = some d ∧
        ∀ t ∈ items, t.2.1 ≠ d ∧ t.2.2 ≠ d) :
    annotate_line items line = line := by
  rcases h with h | ⟨sp, addr, rem, d, h1, h2, h3⟩
  · simp only [annotate_line, h]
  · simp only [annotate_line, h1, h2, annotate_suffixes_eq_nil items d h3]
    exact asmre_match_parts line sp addr rem h1

/-- C9 witness: the line `"  1010: nop"` has address `0x1010`, which is no
boundary of the interval `("main", 0x1000, 0x1020)`; it passes through
unchanged. -/
theorem c9_annotator_noop_witness :
    annotate_line [("main", 4096, 4128)] "  1010: nop" = "  1010: nop" :=
  c9_annotator_noop _ _
    (Or.inr ⟨"  ", "1010", ": nop", 4112, by decide, by decide, by decide⟩)

/-- C10: a line that matches the disassembly address pattern but whose
address token fails base-16 decoding is emitted unchanged — the caught
`ValueError` never escapes the annotation loop. -/
theorem c10_nonhex_token_passthrough (items : List Item) (line sp addr rem : String)
    (h1 : asmre_match line = some (sp, addr, rem)) (h2 : pyIntHex addr = none) :
    annotate_line items line = line := by
  simp only [annotate_line, h1, h2]

/-- C10 witness: `"  zzqq: mov"` matches the pattern with address token
`zzqq`, which is not valid hex; the line passes through unchanged. -/
theorem c10_nonhex_token_passthrough_witness :
    annotate_line [("main", 4096, 4128)] "  zzqq: mov" = "  zzqq: mov" :=
  c10_nonhex_token_passthrough _ _ "  " "zzqq" ": mov" (by decide) (by decide)

/-- C1 counterexample: the claim's own scenario — singletons
`40 1000 1010`, `40 1020 1030` closed by `60 <End of list>` — commits the
two pairs under key `0x60` (the end-of-list line's offset), key `0x40` is
absent from the map, and consequently a DIE with `DW_AT_ranges = 0x40`
yields zero intervals rather than the claimed two. -/
theorem c1_counterexample :
    (parse_ranges [(64 : Int)] rangesLinesC1).refranges =
        [((96 : Int), [((4096 : Int), (4112 : Int)), (4128, 4144)])] ∧
    dictLookup (parse_ranges [(64 : Int)] rangesLinesC1).refranges 64 = none ∧
    collect_ranged_items rangesLinesC1 diesRangesRef = Except.ok [] :=
  ⟨rfl, rfl, rfl⟩

/-- C1 (amended): the pairs accumulated for a range-list block are committed
into the range-list map keyed by the offset printed on the END-OF-LIST line
of the block, not by the offset field of the first singleton; a block of
singletons whose offsets are queued, closed by an end-of-list line with
offset `eo`, stores exactly its pairs under key `eo`. -/
theorem c1_amended_commit_key (keys : List Int) (s1 s2 e : String)
    (o1 st1 en1 o2 st2 en2 eo : Nat)
    (hb1 : basere_test s1 = false)
    (hs1 : singre_parse s1 = some (o1, st1, en1)) (hk1 : (o1 : Int) ∈ keys)
    (he2 : endre_parse s2 = none)
    (hs2 : singre_parse s2 = some (o2, st2, en2)) (hk2 : (o2 : Int) ∈ keys)
    (he : endre_parse e = some eo) :
    (parse_ranges keys [s1, s2, e]).refranges =
      [((eo : Int), [((st1 : Int), (en1 : Int)), ((st2 : Int), (en2 : Int))])] := by
  have h1 : rstep keys ⟨false, [], [], [], none⟩ s1 =
      ⟨true, [((st1 : Int), (en1 : Int))], [], [], some (o1 : Int)⟩ := by
    simp [rstep, rstep_sing, hb1, hs1, hk1]
  have h2 : rstep keys ⟨true, [((st1 : Int), (en1 : Int))], [], [], some (o1 : Int)⟩ s2 =
      ⟨true, [((st1 : Int), (en1 : Int)), ((st2 : Int), (en2 : Int))], [], [],
        some (o2 : Int)⟩ := by
    simp [rstep, rstep_sing, he2, hs2, hk2]
  have h3 : rstep keys
      ⟨true, [((st1 : Int), (en1 : Int)), ((st2 : Int), (en2 : Int))], [], [],
        some (o2 : Int)⟩ e =
      ⟨false, [], [((eo : Int), [((st1 : Int), (en1 : Int)), ((st2 : Int), (en2 : Int))])],
        [], some (eo : Int)⟩ := by
    simp [rstep, he, dictSet]
  show (List.foldl (rstep keys) ⟨false, [], [], [], none⟩ [s1, s2, e]).refranges = _
  simp only [List.foldl]
  rw [h1, h2, h3]

/-- C1 witness: the amended commit rule applied to the concrete scenario of
the claim, yielding the pairs under the end-of-list offset `0x60`. -/
theorem c1_amended_commit_key_witness :
    (parse_ranges [(64 : Int)] ["40 1000 1010", "40 1020 1030", "60 <End of list>"]).refranges =
      [((96 : Int), [((4096 : Int), (4112 : Int)), ((4128 : Int), (4144 : Int))])] :=
  c1_amended_commit_key [64] "40 1000 1010" "40 1020 1030" "60 <End of list>"
    64 4096 4112 64 4128 4144 96
    (by decide) (by decide) (by decide) (by decide) (by decide) (by decide) (by decide)

/-- C8 counterexample: with a block opened by a base-address marker and one
singleton accumulated, a second base-address marker does NOT close the
block — it lands in `unmatched` and the next singleton's pair is appended
to the still-open block, so the committed list for the block opened before
the marker contains the pair that appeared after it. -/
theorem c8_counterexample :
    parse_ranges [(64 : Int)]
        ["00 ffffffffffffffff 400000 (base address)",
         "40 1000 1010",
         "60 ffffffffffffffff 500000 (base address)",
         "40 1020 1030",
         "40 <End of list>"] =
      ⟨false, [], [((64 : Int), [((4096 : Int), (4112 : Int)), (4128, 4144)])],
        ["60 ffffffffffffffff 500000 (base address)"], some 64⟩ :=
  rfl

/-- C8 (amended): only an end-of-list marker closes an open block.  A
base-address line encountered while a block is open is recorded as
unmatched and leaves the parser state (including the accumulated pair
sequence) unchanged, so pairs appearing after it are still appended to the
previously opened block. -/
theorem c8_amended_base_ignored_while_open (keys : List Int) (s : RState) (line : String)
    (h1 : s.inrange = true) (h2 : basere_test line = true)
    (h3 : endre_parse line = none) (h4 : singre_parse line = none) :
    rstep keys s line = { s with unmatched := s.unmatched ++ [line], lastOff := some (-1) } := by
  simp [rstep, rstep_sing, h1, h3, h4]

/-- C8 witness: a concrete open state hit by a base-address line keeps its
accumulated pair and only records the line as unmatched. -/
theorem c8_amended_base_ignored_while_open_witness :
    rstep [] ⟨true, [(1, 2)], [], [], none⟩ "60 ffffffffffffffff 500000 (base address)" =
      ⟨true, [(1, 2)], [], ["60 ffffffffffffffff 500000 (base address)"], some (-1)⟩ :=
  c8_amended_base_ignored_while_open [] ⟨true, [(1, 2)], [], [], none⟩
    "60 ffffffffffffffff 500000 (base address)" rfl (by decide) (by decide) (by decide)

/-- C3 counterexample: the annotated line is NOT the claimed
`"  1000: push rbp // begin main"` — the source writes the separator
`" // "` and then suffixes that each carry their own leading space, so two
spaces separate `//` from `begin`. -/
theorem c3_counterexample :
    dodwarf_annotate [] diesMain ["  1000: push rbp"] ≠
      Except.ok ["  1000: push rbp // begin main"] := by
  decide

/-- C3 (amended): with the subprogram `main` covering `[0x1000, 0x1020]`,
the line at `0x1000` gains the suffix `" //  begin main"` (two spaces after
`//`), the line at `0x1020` gains `" //  end main"`, a boundary-free line is
unchanged, and multiple matches on one line are comma-joined after a single
`" // "` separator (each suffix keeping its leading space). -/
theorem c3_amended_annotation :
    dodwarf_annotate [] diesMain ["  1000: push rbp"] =
        Except.ok ["  1000: push rbp //  begin main"] ∧
    dodwarf_annotate [] diesMain ["  1020: ret"] = Except.ok ["  1020: ret //  end main"] ∧
    dodwarf_annotate [] diesMain ["  1010: nop"] = Except.ok ["  1010: nop"] ∧
    dodwarf_annotate [] diesMulti ["  1000: nop"] =
      Except.ok ["  1000: nop //  end f, begin g"] :=
  ⟨rfl, rfl, rfl, rfl⟩

/-- C4 counterexample: a two-hop abstract-origin chain
(`0x20` → `0x10` → `0x8` named `main`) does NOT resolve to `main`; the
resolver follows exactly one hop and, finding the direct referent
anonymous, returns the synthetic placeholder. -/
theorem c4_counterexample :
    collect_die_nametag [("DW_AT_abstract_origin", "<0x10>")] (some 32)
        "DW_TAG_inlined_subroutine" diesC4 =
      Except.ok "unknown@DW_TAG_inlined_subroutine@20" ∧
    collect_die_nametag [("DW_AT_abstract_origin", "<0x10>")] (some 32)
        "DW_TAG_inlined_subroutine" diesC4 ≠ Except.ok "main" :=
  ⟨rfl, by decide⟩

/-- C4 (amended): name resolution follows exactly one `DW_AT_abstract_origin`
hop.  For an anonymous DIE whose hex-reference resolves to a DIE present in
the store: if that direct referent carries `DW_AT_name` the name is
returned; if the referent is itself anonymous the synthetic placeholder is
returned — regardless of any further abstract-origin links the referent may
have (no transitive chase). -/
theorem c4_amended_single_hop (attrs : Attrs) (off : Int) (tag : String) (dies : Store)
    (a : Int) (ls : List String) (ab tg : String) (ats : Attrs)
    (h0 : dictLookup attrs "DW_AT_name" = none)
    (h1 : grab_hex_attr attrs "DW_AT_abstract_origin" = .ok a)
    (h2 : dictLookup dies (some a) = some ls)
    (h3 : expand_die ls = .ok (ab, tg, ats)) :
    (∀ n, dictLookup ats "DW_AT_name" = some n →
      collect_die_nametag attrs (some off) tag dies = .ok n) ∧
    (dictLookup ats "DW_AT_name" = none →
      collect_die_nametag attrs (some off) tag dies =
        .ok ("unknown@" ++ tag ++ "@" ++ intToHex off)) := by
  constructor
  · intro n hn
    simp [collect_die_nametag, h0, h1, h2, h3, hn, fmtOffHex]
  · intro hn
    simp [collect_die_nametag, h0, h1, h2, h3, hn, fmtOffHex]

/-- C4 witness: a single hop from the anonymous DIE at `0x10` to the named
DIE at `0x8` recovers the name `main`. -/
theorem c4_amended_single_hop_witness :
    collect_die_nametag [("DW_AT_abstract_origin", "<0x8>")] (some 16) "DW_TAG_subprogram"
        diesC4 = Except.ok "main" :=
  (c4_amended_single_hop [("DW_AT_abstract_origin", "<0x8>")] 16 "DW_TAG_subprogram" diesC4 8
    ["<1><8>: Abbrev Number: 3 (DW_TAG_subprogram)", "    <9>   DW_AT_name    : main"]
    "3" "DW_TAG_subprogram" [("DW_AT_name", "main")]
    (by decide) (by decide) (by decide) (by decide)).1 "main" (by decide)

/-- C5 counterexample: name resolution CAN raise — a `DW_AT_abstract_origin`
value that is shaped like a hex value but whose digits fail base-16 decoding
(`0xzz`) raises an uncaught `ValueError` inside `grab_hex_attr` instead of
falling back to the placeholder. -/
theorem c5_counterexample :
    collect_die_nametag [("DW_AT_abstract_origin", "0xzz")] (some 0) "DW_TAG_lexical_block" []
      = Except.error "ValueError: zz" :=
  rfl

/-- C5 (amended): provided the `DW_AT_abstract_origin` value decodes without
error, a DIE for which no name is found — the referenced offset absent from
the store, or the referent itself anonymous — resolves to the synthetic
placeholder `"unknown@<tag>@<offset-%x>"` without raising; and a DIE with a
direct `DW_AT_name` returns it immediately, never consulting
`DW_AT_abstract_origin` even when both attributes are present. -/
theorem c5_amended_placeholder (attrs : Attrs) (off : Int) (tag : String) (dies : Store)
    (a : Int)
    (h0 : dictLookup attrs "DW_AT_name" = none)
    (h1 : grab_hex_attr attrs "DW_AT_abstract_origin" = .ok a)
    (h2 : dictLookup dies (some a) = none ∨
      ∃ ls ab tg ats, dictLookup dies (some a) = some ls ∧ expand_die ls = .ok (ab, tg, ats) ∧
        dictLookup ats "DW_AT_name" = none) :
    collect_die_nametag attrs (some off) tag dies =
        .ok ("unknown@" ++ tag ++ "@" ++ intToHex off) ∧
    ∀ (attrs2 : Attrs) (n : String), dictLookup attrs2 "DW_AT_name" = some n →
      collect_die_nametag attrs2 (some off) tag dies = .ok n := by
  constructor
  · rcases h2 with h2 | ⟨ls, ab, tg, ats, hl, he, hn⟩
    · simp [collect_die_nametag, h0, h1, h2, fmtOffHex]
    · simp [collect_die_nametag, h0, h1, hl, he, hn, fmtOffHex]
  · intro attrs2 n hn
    simp [collect_die_nametag, hn]

/-- C5 witness: a dangling abstract-origin reference (`0x100` absent from
the store) yields the placeholder, and a named DIE with an abstract-origin
attribute present still returns its direct name. -/
theorem c5_amended_placeholder_witness :
    collect_die_nametag [("DW_AT_abstract_origin", "<0x100>")] (some 32)
        "DW_TAG_lexical_block" [] = Except.ok "unknown@DW_TAG_lexical_block@20" ∧
    collect_die_nametag [("DW_AT_name", "f"), ("DW_AT_abstract_origin", "<0x100>")] (some 32)
        "DW_TAG_lexical_block" [] = Except.ok "f" := by
  have h := c5_amended_placeholder [("DW_AT_abstract_origin", "<0x100>")] 32
    "DW_TAG_lexical_block" [] 256 (by decide) (by decide) (Or.inl (by decide))
  exact ⟨h.1, h.2 [("DW_AT_name", "f"), ("DW_AT_abstract_origin", "<0x100>")] "f" (by decide)⟩

/-! ### The DIE-dump round trip (C2) -/

theorem rdc_attr_lines (als : List String)
    (h : ∀ l ∈ als, bdiere_match l = none ∧ (indiere_match l).isSome) :
    ∀ (rest : List String) (d : Store) (k : Option Int) (pre : List String),
      dictHasKey d k = false →
      rdc_loop (als ++ rest) (d ++ [(k, pre)]) k = rdc_loop rest (d ++ [(k, pre ++ als)]) k := by
  induction als with
  | nil => intro rest d k pre _; simp
  | cons l als ih =>
    intro rest d k pre hf
    obtain ⟨hb, hi⟩ := h l (List.mem_cons_self _ _)
    obtain ⟨pr, hpr⟩ := Option.isSome_iff_exists.mp hi
    show rdc_loop (l :: (als ++ rest)) (d ++ [(k, pre)]) k = _
    simp only [rdc_loop, hb, hpr]
    rw [dictAppendList_last d k pre l hf]
    rw [ih (fun l2 hl2 => h l2 (List.mem_cons_of_mem _ hl2)) rest d k (pre ++ [l]) hf]
    rw [List.append_assoc, List.singleton_append]

theorem rdc_block (b : DieBlock) (hb : WFBlock b) (rest : List String) (d : Store)
    (cur : Option Int) (hf : dictHasKey d (some b.off) = false) :
    rdc_loop (blockLines b ++ rest) d cur =
      rdc_loop rest (d ++ [(some b.off, blockLines b)]) (some b.off) := by
  obtain ⟨h1, h2, h3⟩ := hb
  show rdc_loop (b.startLine :: (b.attrLines ++ rest)) d cur = _
  simp only [rdc_loop, h1, h2]
  rw [dictAppendList_fresh d (some b.off) b.startLine hf]
  rw [rdc_attr_lines b.attrLines h3 rest d (some b.off) [b.startLine] hf]
  rw [List.singleton_append]
  rfl

theorem rdc_dump (bs : List DieBlock) (h : ∀ b ∈ bs, WFBlock b)
    (hnd : (bs.map (·.off)).Nodup) :
    ∀ (d : Store) (cur : Option Int), (∀ b ∈ bs, dictHasKey d (some b.off) = false) →
      rdc_loop (dumpLines bs) d cur =
        .ok (d ++ bs.map (fun b => (some b.off, blockLines b))) := by
  induction bs with
  | nil => intro d cur _; simp [dumpLines, rdc_loop]
  | cons b bs ih =>
    intro d cur hf
    obtain ⟨hnd1, hnd2⟩ := List.nodup_cons.mp hnd
    rw [dumpLines]
    rw [rdc_block b (h b (List.mem_cons_self _ _)) (dumpLines bs) d cur
      (hf b (List.mem_cons_self _ _))]
    rw [ih (fun b2 hb2 => h b2 (List.mem_cons_of_mem _ hb2)) hnd2
      (d ++ [(some b.off, blockLines b)]) (some b.off) ?_]
    · rw [List.append_assoc, List.singleton_append, List.map_cons]
    · intro b2 hb2
      rw [dictHasKey_append, hf b2 (List.mem_cons_of_mem _ hb2)]
      have hne : some b.off ≠ some b2.off := by
        intro hc
        injection hc with hc
        have hmem : b2.off ∈ bs.map (·.off) := List.mem_map_of_mem (·.off) hb2
        rw [← hc] at hmem
        exact hnd1 hmem
      simp [dictHasKey, hne]

theorem expand_attrs_spec (ls : List String) :
    ∀ (d : Attrs), (∀ l ∈ ls, (indiere_match l).isSome) →
      ∃ ats, expand_attrs ls d = .ok ats ∧
        ∀ a, dictLookup ats a =
          (match lastWins (observedAttrs ls) a with
           | some v => some v
           | none => dictLookup d a) := by
  induction ls with
  | nil =>
    intro d _
    refine ⟨d, rfl, fun a => ?_⟩
    simp [observedAttrs, lastWins]
  | cons l ls ih =>
    intro d hl
    obtain ⟨pr, hpr⟩ := Option.isSome_iff_exists.mp (hl l (List.mem_cons_self _ _))
    obtain ⟨a0, v0⟩ := pr
    obtain ⟨ats, hats, hlook⟩ :=
      ih (dictSet d a0 (pyStrip v0)) (fun l2 hl2 => hl l2 (List.mem_cons_of_mem _ hl2))
    refine ⟨ats, ?_, ?_⟩
    · simp only [expand_attrs, hpr]
      exact hats
    · intro a
      have hobs : observedAttrs (l :: ls) = (a0, pyStrip v0) :: observedAttrs ls := by
        simp [observedAttrs, hpr]
      rw [hlook a, hobs, lastWins, dictSet_lookup]
      cases hc : lastWins (observedAttrs ls) a with
      | some v => rfl
      | none =>
        by_cases ha : a0 = a
        · simp [ha]
        · simp [ha]

/-- C2: for every well-formed DIE dump, reading it produces exactly one
DIE-store entry per DIE-start line, keyed by the offset declared in that
line and holding the DIE's line group, in dump order; and expanding any of
those entries returns the abbrev number and tag of its start line together
with an attribute map in which every key resolves to the value of its last
occurrence among the attribute lines (in line order, duplicates decided
last-wins). -/
theorem c2_die_store_roundtrip (bs : List DieBlock) (h : WFDump bs) :
    read_die_chain (dumpLines bs) = .ok (bs.map (fun b => (some b.off, blockLines b))) ∧
    ∀ b ∈ bs, ∃ ats, expand_die (blockLines b) = .ok (b.abv, b.tag, ats) ∧
      ∀ a, dictLookup ats a = lastWins (observedAttrs b.attrLines) a := by
  obtain ⟨hwf, hnd⟩ := h
  constructor
  · show rdc_loop (dumpLines bs) [] none = _
    rw [rdc_dump bs hwf hnd [] none (fun b _ => rfl)]
    rw [List.nil_append]
  · intro b hb
    obtain ⟨h1, h2, h3⟩ := hwf b hb
    obtain ⟨ats, hats, hlook⟩ := expand_attrs_spec b.attrLines [] (fun l hl => (h3 l hl).2)
    refine ⟨ats, ?_, ?_⟩
    · show expand_die (b.startLine :: b.attrLines) = _
      simp only [expand_die, h1, hats]
    · intro a
      rw [hlook a]
      cases lastWins (observedAttrs b.attrLines) a with
      | some v => rfl
      | none => rfl

/-- C2 witness: a two-DIE dump (one with a duplicate `DW_AT_name` line) is
well formed, reads into exactly one keyed entry per DIE, and the duplicate
key expands to its last value. -/
theorem c2_die_store_roundtrip_witness :
    WFDump [c2b1, c2b2] ∧
    read_die_chain (dumpLines [c2b1, c2b2]) =
      Except.ok [(some 11, blockLines c2b1), (some 16, blockLines c2b2)] :=
  ⟨by decide, (c2_die_store_roundtrip [c2b1, c2b2] (by decide)).1⟩

/-! ### Interval orderedness (C6) -/

theorem cri_loop_lohi (dies : Store) :
    ∀ (entries : List (Option Int × List String)) (res : List Item) (rl : RlRefs)
      (res2 : List Item) (rl2 : RlRefs),
      (∀ p ∈ entries, pcPairOrdered p.2 = true) →
      (∀ i ∈ res, i.2.1 ≤ i.2.2) →
      cri_loop dies entries res rl = .ok (res2, rl2) →
      ∀ i ∈ res2, i.2.1 ≤ i.2.2 := by
  intro entries
  induction entries with
  | nil =>
    intro res rl res2 rl2 _ hres hcl
    simp only [cri_loop] at hcl
    cases hcl
    exact hres
  | cons p rest ih =>
    intro res rl res2 rl2 hP hres hcl
    obtain ⟨off, ls⟩ := p
    simp only [cri_loop] at hcl
    split at hcl
    next e heq => exact Except.noConfusion hcl
    next ab tag attrs heq =>
      split at hcl
      next e heq2 => exact Except.noConfusion hcl
      next lodec hidec heq2 =>
        split at hcl
        next hcond =>
          split at hcl
          next e heq3 => exact Except.noConfusion hcl
          next name heq3 =>
            refine ih (res ++ [(name, lodec, hidec)]) rl res2 rl2
              (fun q hq => hP q (List.mem_cons_of_mem _ hq)) ?_ hcl
            intro i hi
            rcases List.mem_append.mp hi with hi | hi
            · exact hres i hi
            · rw [List.mem_singleton] at hi
              subst hi
              have hord := hP (off, ls) (List.mem_cons_self _ _)
              simp only [pcPairOrdered, heq, heq2] at hord
              simp only [hcond.1, hcond.2, decide_False, Bool.false_or,
                decide_eq_true_eq] at hord
              exact hord
        next hcond =>
          split at hcl
          next e heq3 => exact Except.noConfusion hcl
          next rlref heq3 =>
            split at hcl
            next hne =>
              split at hcl
              next e heq4 => exact Except.noConfusion hcl
              next ox heq4 =>
                exact ih res _ res2 rl2
                  (fun q hq => hP q (List.mem_cons_of_mem _ hq)) hres hcl
            next hne =>
              exact ih res rl res2 rl2
                (fun q hq => hP q (List.mem_cons_of_mem _ hq)) hres hcl

theorem rstep_sing_lohi (keys : List Int) (s : RState) (line : String)
    (hc : ∀ p ∈ s.crange, p.1 ≤ p.2)
    (hr : ∀ q ∈ s.refranges, ∀ p ∈ q.2, p.1 ≤ p.2)
    (hl : singletonOrdered line = true) :
    (∀ p ∈ (rstep_sing keys s line).crange, p.1 ≤ p.2) ∧
    (∀ q ∈ (rstep_sing keys s line).refranges, ∀ p ∈ q.2, p.1 ≤ p.2) := by
  cases hs : singre_parse line with
  | some t =>
    obtain ⟨o, st, en⟩ := t
    simp only [singletonOrdered, hs, decide_eq_true_eq] at hl
    simp only [rstep_sing, hs]
    constructor
    · intro p hp
      by_cases hk : (o : Int) ∈ keys
      · rw [if_pos hk] at hp
        rcases List.mem_append.mp hp with hp | hp
        · exact hc p hp
        · rw [List.mem_singleton] at hp
          subst hp
          show (st : Int) ≤ (en : Int)
          exact_mod_cast hl
      · rw [if_neg hk] at hp
        exact hc p hp
    · exact hr
  | none =>
    simp only [rstep_sing, hs]
    exact ⟨hc, hr⟩

theorem rstep_lohi (keys : List Int) (s : RState) (line : String)
    (hc : ∀ p ∈ s.crange, p.1 ≤ p.2)
    (hr : ∀ q ∈ s.refranges, ∀ p ∈ q.2, p.1 ≤ p.2)
    (hl : singletonOrdered line = true) :
    (∀ p ∈ (rstep keys s line).crange, p.1 ≤ p.2) ∧
    (∀ q ∈ (rstep keys s line).refranges, ∀ p ∈ q.2, p.1 ≤ p.2) := by
  unfold rstep
  by_cases hin : s.inrange
  · rw [if_pos hin]
    cases he : endre_parse line with
    | some eoff =>
      simp only
      constructor
      · intro p hp
        exact absurd hp (List.not_mem_nil p)
      · intro q hq
        rcases dictSet_mem ((eoff : Nat) : Int) s.crange s.refranges q hq with hq2 | hq2
        · exact hr q hq2
        · subst hq2
          exact hc
    | none => exact rstep_sing_lohi keys s line hc hr hl
  · rw [if_neg hin]
    by_cases hb : basere_test line
    · rw [if_pos hb]
      exact ⟨hc, hr⟩
    · rw [if_neg hb]
      exact rstep_sing_lohi keys s line hc hr hl

theorem parse_fold_lohi (keys : List Int) :
    ∀ (lines : List String) (s : RState),
      (∀ p ∈ s.crange, p.1 ≤ p.2) →
      (∀ q ∈ s.refranges, ∀ p ∈ q.2, p.1 ≤ p.2) →
      (∀ l ∈ lines, singletonOrdered l = true) →
      ∀ q ∈ (lines.foldl (rstep keys) s).refranges, ∀ p ∈ q.2, p.1 ≤ p.2 := by
  intro lines
  induction lines with
  | nil => intro s _ hr _; exact hr
  | cons l lines ih =>
    intro s hc hr hl
    obtain ⟨hc2, hr2⟩ := rstep_lohi keys s l hc hr (hl l (List.mem_cons_self _ _))
    exact ih (rstep keys s l) hc2 hr2 (fun l2 hl2 => hl l2 (List.mem_cons_of_mem _ hl2))

theorem pp_loop2_lohi (dies : Store) (pairs : List (Int × Int))
    (hp : ∀ p ∈ pairs, p.1 ≤ p.2) :
    ∀ (ts : List (Attrs × Option Int × String)) (res res2 : List Item),
      (∀ i ∈ res, i.2.1 ≤ i.2.2) → pp_loop2 dies pairs ts res = .ok res2 →
      ∀ i ∈ res2, i.2.1 ≤ i.2.2 := by
  intro ts
  induction ts with
  | nil =>
    intro res res2 hres hpp
    simp only [pp_loop2] at hpp
    cases hpp
    exact hres
  | cons t ts ih =>
    intro res res2 hres hpp
    obtain ⟨attrs, dieoff, tag⟩ := t
    simp only [pp_loop2] at hpp
    split at hpp
    next e heq => exact Except.noConfusion hpp
    next name heq =>
      refine ih _ res2 ?_ hpp
      intro i hi
      rcases List.mem_append.mp hi with hi | hi
      · exact hres i hi
      · obtain ⟨q, hq, hiq⟩ := List.mem_map.mp hi
        rw [← hiq]
        exact hp q hq

theorem pp_loop1_lohi (s : RState) (dies : Store)
    (hr : ∀ q ∈ s.refranges, ∀ p ∈ q.2, p.1 ≤ p.2) :
    ∀ (rls : RlRefs) (res res2 : List Item),
      (∀ i ∈ res, i.2.1 ≤ i.2.2) → pp_loop1 s dies rls res = .ok res2 →
      ∀ i ∈ res2, i.2.1 ≤ i.2.2 := by
  intro rls
  induction rls with
  | nil =>
    intro res res2 hres hpp
    simp only [pp_loop1] at hpp
    cases hpp
    exact hres
  | cons rt rls ih =>
    intro res res2 hres hpp
    obtain ⟨roff, tlist⟩ := rt
    simp only [pp_loop1] at hpp
    split at hpp
    next hlk =>
      split at hpp
      next hlast => exact Except.noConfusion hpp
      next v hlast => exact ih res res2 hres hpp
    next pairs hlk =>
      split at hpp
      next e heq => exact Except.noConfusion hpp
      next resM heq =>
        refine ih resM res2 ?_ hpp
        exact pp_loop2_lohi dies pairs
          (fun p hp2 => hr (roff, pairs) (dictLookup_mem roff pairs s.refranges hlk) p hp2)
          tlist res resM hres heq

/-- C6 (amended): every interval emitted by the collector carries exactly
the decoded bounds, so `low <= high` holds for all emitted intervals
precisely when the inputs are ordered: whenever every DIE whose direct
`DW_AT_low_pc`/`DW_AT_high_pc` pair decodes (both ≠ -1) has `low <= high`,
and every range-list singleton line carries `start <= end`, all emitted
intervals satisfy `low <= high`.  (The code enforces no ordering itself —
see the counterexample.) -/
theorem c6_amended_lo_le_hi (ranges_lines : List String) (dies : Store) (res : List Item)
    (hd : ∀ p ∈ dies, pcPairOrdered p.2 = true)
    (hr : ∀ l ∈ ranges_lines, singletonOrdered l = true)
    (hcol : collect_ranged_items ranges_lines dies = .ok res) :
    ∀ i ∈ res, i.2.1 ≤ i.2.2 := by
  unfold collect_ranged_items at hcol
  split at hcol
  next e heq => exact Except.noConfusion hcol
  next results rlrefs heq =>
    have hres := cri_loop_lohi dies dies [] [] results rlrefs hd
      (fun i hi => absurd hi (List.not_mem_nil i)) heq
    split at hcol
    next hemp =>
      cases hcol
      exact hres
    next hemp =>
      unfold postprocess_rangerefs at hcol
      refine pp_loop1_lohi _ dies ?_ rlrefs results res hres hcol
      exact parse_fold_lohi (rlrefs.map (·.1)) ranges_lines ⟨false, [], [], [], none⟩
        (fun p hp => absurd hp (List.not_mem_nil p))
        (fun q hq => absurd hq (List.not_mem_nil q)) hr

/-- C6 counterexample: a DIE with `DW_AT_low_pc = 0x20`,
`DW_AT_high_pc = 0x10` is emitted as the interval `("f", 32, 16)` with
`low > high` — the collector enforces no ordering. -/
theorem c6_counterexample :
    collect_ranged_items []
        [(some 16,
          ["<1><10>: Abbrev Number: 2 (DW_TAG_subprogram)",
           "    <11>   DW_AT_name    : f",
           "    <15>   DW_AT_low_pc    : 0x20",
           "    <19>   DW_AT_high_pc    : 0x10"])] =
      Except.ok [("f", 32, 16)] ∧ ¬((32 : Int) ≤ 16) :=
  ⟨rfl, by decide⟩

/-- C6 witness: on a store whose DIEs all carry ordered PC pairs the
collector emits only ordered intervals; instantiated on `diesMain`, which
collects to the single interval `("main", 0x1000, 0x1020)`. -/
theorem c6_amended_lo_le_hi_witness :
    collect_ranged_items [] diesMain = Except.ok [("main", 4096, 4128)] ∧
    ((4096 : Int) ≤ 4128) :=
  ⟨rfl,
    c6_amended_lo_le_hi [] diesMain [("main", 4096, 4128)] (by decide) (by decide) rfl
      ("main", 4096, 4128) (List.mem_singleton_self _)⟩

/-! ### Fatal malformed hex (C7) -/

theorem cri_loop_err (dies : Store) :
    ∀ (entries : List (Option Int × List String)) (res : List Item) (rl : RlRefs)
      (off : Option Int) (ls : List String) (ab tg : String) (ats : Attrs) (m : String),
      (off, ls) ∈ entries → expand_die ls = .ok (ab, tg, ats) →
      grab_hex_attr ats "DW_AT_low_pc" = .error m →
      exceptIsOk (cri_loop dies entries res rl) = false := by
  intro entries
  induction entries with
  | nil =>
    intro res rl off ls ab tg ats m hmem _ _
    exact absurd hmem (List.not_mem_nil _)
  | cons p rest ih =>
    intro res rl off ls ab tg ats m hmem hexp hgrab
    obtain ⟨off2, ls2⟩ := p
    rcases List.mem_cons.mp hmem with heq | hmem2
    · injection heq with he1 he2
      subst he1
      subst he2
      have hpc : get_pc_range ats = .error m := by
        simp only [get_pc_range, hgrab]
      simp only [cri_loop, hexp, hpc]
      rfl
    · simp only [cri_loop]
      split
      next e h1 => rfl
      next ab2 tag2 attrs2 h1 =>
        split
        next e h2 => rfl
        next lo hi h2 =>
          split
          next hcond =>
            split
            next e h3 => rfl
            next name h3 => exact ih _ _ off ls ab tg ats m hmem2 hexp hgrab
          next hcond =>
            split
            next e h3 => rfl
            next rlref h3 =>
              split
              next hne =>
                split
                next e h4 => rfl
                next ox h4 => exact ih _ _ off ls ab tg ats m hmem2 hexp hgrab
              next hne => exact ih _ _ off ls ab tg ats m hmem2 hexp hgrab

/-- C7 (amended): a present attribute value that is shaped like a hex value
but whose digits fail base-16 decoding is FATAL, not skipped: `grab_hex_attr`
raises the `ValueError` (uncaught), and a store containing a DIE whose
`DW_AT_low_pc` carries such a value makes the whole collection pass abort
rather than complete with a warning.  (Range-pair fields cannot be
malformed this way: the singleton regex admits only valid hex digits.) -/
theorem c7_amended_malformed_hex_fatal (attrs : Attrs) (attrname v g : String)
    (rll : List String) (dies : Store) (off : Option Int) (ls : List String)
    (ab tg : String) (ats : Attrs)
    (h1 : dictLookup attrs attrname = some v) (h2 : hexvalre_match v = some g)
    (h3 : pyIntHex g = none)
    (h4 : dictLookup ats "DW_AT_low_pc" = some v)
    (h5 : (off, ls) ∈ dies) (h6 : expand_die ls = .ok (ab, tg, ats)) :
    grab_hex_attr attrs attrname = .error ("ValueError: " ++ g) ∧
    exceptIsOk (collect_ranged_items rll dies) = false := by
  have hg : ∀ (ats2 : Attrs) (an : String), dictLookup ats2 an = some v →
      grab_hex_attr ats2 an = .error ("ValueError: " ++ g) := by
    intro ats2 an hA
    simp only [grab_hex_attr, hA, h2, h3]
  refine ⟨hg attrs attrname h1, ?_⟩
  have herr := cri_loop_err dies dies [] [] off ls ab tg ats ("ValueError: " ++ g)
    h5 h6 (hg ats "DW_AT_low_pc" h4)
  unfold collect_ranged_items
  cases hc : cri_loop dies dies [] [] with
  | error e => simp only [hc]; rfl
  | ok pr =>
    rw [hc] at herr
    simp [exceptIsOk] at herr

/-- C7 counterexample: a DIE whose `DW_AT_low_pc` is the malformed hex
`0xzz` aborts the whole collection pass with the uncaught `ValueError` —
the pass does not complete with that DIE skipped. -/
theorem c7_counterexample :
    collect_ranged_items []
        [(some 16,
          ["<1><10>: Abbrev Number: 2 (DW_TAG_subprogram)",
           "    <11>   DW_AT_low_pc    : 0xzz"])] =
      Except.error "ValueError: zz" :=
  rfl

/-- C7 witness: the fatal-abort theorem instantiated on that store. -/
theorem c7_amended_malformed_hex_fatal_witness :
    grab_hex_attr [("DW_AT_low_pc", "0xzz")] "DW_AT_low_pc" =
        Except.error "ValueError: zz" ∧
    exceptIsOk (collect_ranged_items []
      [(some 16,
        ["<1><10>: Abbrev Number: 2 (DW_TAG_subprogram)",
         "    <11>   DW_AT_low_pc    : 0xzz"])]) = false :=
  c7_amended_malformed_hex_fatal [("DW_AT_low_pc", "0xzz")] "DW_AT_low_pc" "0xzz" "zz"
    [] [(some 16,
      ["<1><10>: Abbrev Number: 2 (DW_TAG_subprogram)",
       "    <11>   DW_AT_low_pc    : 0xzz"])]
    (some 16)
    ["<1><10>: Abbrev Number: 2 (DW_TAG_subprogram)",
     "    <11>   DW_AT_low_pc    : 0xzz"]
    "2" "DW_TAG_subprogram" [("DW_AT_low_pc", "0xzz")]
    (by decide) (by decide) (by decide) (by decide) (by decide) (by decide)

end DisasFn
